import Mathlib

set_option maxHeartbeats 1600000

/-
Verification of the hue-reflect image filter (src/main.rs).

Modelling conventions:
* `f32` values are modelled as exact rationals.  IEEE NaN is modelled by
  `none` in `F := Option ℚ`; arithmetic on `F` propagates `none`, and a
  comparison involving `none` is `false`, exactly as for NaN.
* `fdiv` returns `none` when the divisor is zero.  In IEEE arithmetic a
  zero divisor gives NaN when the dividend is also zero and an infinity
  otherwise; in this program every division whose divisor can vanish
  (`c / big_m`, `(big_m - little_x) / c`) has a dividend that vanishes
  with it, so `none` (NaN) is the value that actually arises.
* Rust's saturating `as u8` cast is `toU8` (NaN and negatives to 0,
  values above 255 to 255, truncation toward zero otherwise).
* A Rust `unreachable!` arm aborts the program; a function containing
  one returns an `Option`, with `none` for the aborting branch.
* The `while angle < 0.0` loop of `hsv_reflect` is `fwrap`, implemented
  with the exact number of iterations as fuel; `wrapNonneg_eq` below
  proves the loop's defining equation, so `wrapNonneg` is the loop.
-/

abbrev F : Type := Option ℚ

def fadd : F → F → F
  | some a, some b => some (a + b)
  | _, _ => none

def fsub : F → F → F
  | some a, some b => some (a - b)
  | _, _ => none

def fmul : F → F → F
  | some a, some b => some (a * b)
  | _, _ => none

def fdiv : F → F → F
  | some a, some b => if b = 0 then none else some (a / b)
  | _, _ => none

def flt : F → F → Bool
  | some a, some b => decide (a < b)
  | _, _ => false

def fle : F → F → Bool
  | some a, some b => decide (a ≤ b)
  | _, _ => false

def fbeq : F → F → Bool
  | some a, some b => decide (a = b)
  | _, _ => false

def toU8 : F → Nat
  | none => 0
  | some q => if q < 0 then 0 else min 255 (Int.toNat ⌊q⌋)

/-- One iteration of `while angle < 0.0 { angle += 360.0 }`, with fuel. -/
def wrapAux : Nat → ℚ → ℚ
  | 0, q => q
  | n + 1, q => if q < 0 then wrapAux n (q + 360) else q

/-- The number of iterations the while loop performs on input `q`. -/
def wrapFuel (q : ℚ) : Nat := Int.toNat ⌈-q / 360⌉

/-- The while loop of `hsv_reflect` on a numeric angle. -/
def wrapNonneg (q : ℚ) : ℚ := wrapAux (wrapFuel q) q

/-- The while loop of `hsv_reflect`; on NaN the guard is false at once. -/
def fwrap : F → F
  | none => none
  | some q => some (wrapNonneg q)

/-- Model of `image::Rgb<u8>`: three 8-bit colour channels (naturals ≤ 255). -/
structure Rgb where
  r : Nat
  g : Nat
  b : Nat
deriving DecidableEq

/-- Model of `image::Rgba<u8>`: colour channels plus alpha. -/
structure Rgba where
  r : Nat
  g : Nat
  b : Nat
  a : Nat
deriving DecidableEq

/-- Model of `struct Hsv([f32; 3])`: hue, saturation, value. -/
structure Hsv where
  h : F
  s : F
  v : F
deriving DecidableEq

/-- The source's `*[r, g, b].iter().max().unwrap()`. -/
def max3 (r g b : Nat) : Nat := max r (max g b)

/-- The source's `*[r, g, b].iter().min().unwrap()`. -/
def min3 (r g b : Nat) : Nat := min r (min g b)

/-- Model of `fn rgb_to_hsv` (src/main.rs lines 9-31).  The final `_ =>
unreachable!()` arm of the `match` on `big_m` is the `none` result. -/
def rgb_to_hsv (p : Rgb) : Option Hsv :=
  let bigM : F := some ((max3 p.r p.g p.b : ℚ) / 255)
  let littleM : F := some ((min3 p.r p.g p.b : ℚ) / 255)
  let c : F := fsub bigM littleM
  let s : F := fmul (fdiv c bigM) (some 100)
  let littleR : F := some ((p.r : ℚ) / 255)
  let littleG : F := some ((p.g : ℚ) / 255)
  let littleB : F := some ((p.b : ℚ) / 255)
  let bigR : F := fdiv (fsub bigM littleR) c
  let bigG : F := fdiv (fsub bigM littleG) c
  let bigB : F := fdiv (fsub bigM littleB) c
  let hPrime : Option F :=
    if fbeq bigM littleM then some (some 0)
    else if fbeq bigM littleR then some (fsub bigB bigG)
    else if fbeq bigM littleG then some (fadd (some 2) (fsub bigR bigB))
    else if fbeq bigM littleB then some (fadd (some 4) (fsub bigG bigR))
    else none
  hPrime.map fun hp => ⟨fmul (fdiv hp (some 6)) (some 360), s, fmul bigM (some 100)⟩

/-- Model of `fn hsv_to_rgb` (src/main.rs lines 33-68).  The source names the
local floats `max`/`min`; they are `maxv`/`minv` here.  The final `_ =>
unreachable!()` arm of the `match` on `h_prime` is the `none` result. -/
def hsv_to_rgb (p : Hsv) : Option Rgb :=
  let hue : F := p.h
  let saturation : F := fdiv p.s (some 100)
  let value : F := fdiv p.v (some 100)
  let maxv : F := value
  let c : F := fmul saturation value
  let minv : F := fsub maxv c
  let hPrime : F :=
    if fle (some 300) hue then fdiv (fsub hue (some 360)) (some 60)
    else fdiv hue (some 60)
  let rgb : Option (F × F × F) :=
    if fle (some (-1)) hPrime && flt hPrime (some 1) then
      some (if flt hPrime (some 0) then (maxv, minv, fsub minv (fmul hPrime c))
            else (maxv, fadd minv (fmul hPrime c), minv))
    else if fle (some 1) hPrime && flt hPrime (some 3) then
      some (if flt hPrime (some 2) then (fsub minv (fmul (fsub hPrime (some 2)) c), maxv, minv)
            else (minv, maxv, fadd minv (fmul (fsub hPrime (some 2)) c)))
    else if fle (some 3) hPrime && flt hPrime (some 5) then
      some (if flt hPrime (some 4) then (minv, fsub minv (fmul (fsub hPrime (some 4)) c), maxv)
            else (fadd minv (fmul (fsub hPrime (some 4)) c), minv, maxv))
    else none
  rgb.map fun t =>
    ⟨toU8 (fmul t.1 (some 255)), toU8 (fmul t.2.1 (some 255)), toU8 (fmul t.2.2 (some 255))⟩

/-- Model of `fn hsv_reflect` (src/main.rs lines 70-82). -/
def hsv_reflect (p : Hsv) (reflect_angle : F) : Hsv :=
  let angle1 : F := fsub p.h reflect_angle
  let angle2 : F := fwrap angle1
  let angle3 : F := fadd (fsub (some 360) angle2) reflect_angle
  ⟨angle3, p.s, p.v⟩

/-- The per-pixel body of `main`'s loops (src/main.rs lines 113-119 and
128-134): convert to HSV, reflect the hue, convert back, and re-attach
the input pixel's alpha channel. -/
def process_pixel (pixel : Rgba) (reflect_angle : F) : Option Rgba :=
  (rgb_to_hsv ⟨pixel.r, pixel.g, pixel.b⟩).bind fun hsv =>
    (hsv_to_rgb (hsv_reflect hsv reflect_angle)).map fun nrgb =>
      ⟨nrgb.r, nrgb.g, nrgb.b, pixel.a⟩

/-- Truncation toward zero, as Rust's float `%` uses. -/
def ratTrunc (q : ℚ) : ℤ := if 0 ≤ q then ⌊q⌋ else ⌈q⌉

/-- Rust's float remainder `x % m`: exact, with the sign of the
dividend. -/
def rustRem (x m : ℚ) : ℚ := x - m * (ratTrunc (x / m) : ℚ)

/-- Model of `let reflect_angle: f32 = (args[2].parse::<f32>()...) % 180.;`
(src/main.rs line 93): the axis the core actually uses, as a function
of the numeric command-line angle. -/
def mainAxis (angleArg : ℚ) : ℚ := rustRem angleArg 180

/-- The row indices handed to the spawned workers, in spawn order
(src/main.rs lines 107-124): row `y*core_count + y_inner` for
`y < height/core_count`, `y_inner < core_count`. -/
def workerRows (height coreCount : Nat) : List Nat :=
  (List.range (height / coreCount)).flatMap fun y =>
    (List.range coreCount).map fun yInner => y * coreCount + yInner

/-- The rows the coordinating thread processes itself (src/main.rs line
126): `height/core_count*core_count .. height`. -/
def remainderRows (height coreCount : Nat) : List Nat :=
  List.range' (height / coreCount * coreCount)
    (height - height / coreCount * coreCount)

/-- The output grid (`ImageBuffer`), as a function from coordinates. -/
def Buf : Type := Nat → Nat → Rgba

/-- The buffer from `ImageBuffer::new(width, height)`: every pixel zero. -/
def initBuf : Buf := fun _ _ => ⟨0, 0, 0, 0⟩

/-- The buffer write `put_pixel`. -/
def putPixel (buf : Buf) (x y : Nat) (q : Rgba) : Buf :=
  fun x' y' => if x' = x ∧ y' = y then q else buf x' y'

/-- One row's inner loop `for x in 0..width`: transform each pixel of
row `y` and write it at the same coordinates; `none` if some pixel
aborts. -/
def writeRow (inp : Nat → Nat → Rgba) (reflect_angle : F) (width y : Nat)
    (buf : Buf) : Option Buf :=
  (List.range width).foldlM
    (fun acc x => (process_pixel (inp x y) reflect_angle).map (putPixel acc x y))
    buf

/-- The whole pass of `main` over the grid: every worker row followed by
the remainder rows, each row written by `writeRow` into the shared
output buffer.  The workers write disjoint rows of the mutex-protected
buffer and are all joined before the buffer is read, so the
nondeterministic interleaving is modelled by this spawn-order
serialisation; `none` models a worker abort (propagated by
`join().unwrap()`). -/
def runPass (inp : Nat → Nat → Rgba) (width height coreCount : Nat)
    (reflect_angle : F) : Option Buf :=
  (workerRows height coreCount ++ remainderRows height coreCount).foldlM
    (fun buf y => writeRow inp reflect_angle width y buf) initBuf

lemma ceil_shift360 (q : ℚ) : ⌈-(q + 360) / 360⌉ = ⌈-q / 360⌉ - 1 := by
  have h : -(q + 360) / 360 = -q / 360 - 1 := by ring
  rw [h, Int.ceil_sub_one]

lemma wrapAux_shift (n : Nat) : ∀ q : ℚ, ∃ k : ℕ, wrapAux n q = q + 360 * k := by
  induction n with
  | zero => exact fun q => ⟨0, by simp [wrapAux]⟩
  | succ n ih =>
    intro q
    by_cases h : q < 0
    · obtain ⟨k, hk⟩ := ih (q + 360)
      refine ⟨k + 1, ?_⟩
      simp only [wrapAux, if_pos h, hk]
      push_cast
      ring
    · exact ⟨0, by simp [wrapAux, h]⟩

lemma wrapAux_nonneg (n : Nat) : ∀ q : ℚ, wrapFuel q ≤ n → 0 ≤ wrapAux n q := by
  induction n with
  | zero =>
    intro q hq
    have h0 : ⌈-q / 360⌉ ≤ 0 := by
      have := Nat.le_zero.mp hq
      simpa [wrapFuel, Int.toNat_eq_zero] using this
    have h1 : -q / 360 ≤ 0 := by exact_mod_cast Int.ceil_le.mp h0
    have h2 : 0 ≤ q := by
      by_contra hc
      push_neg at hc
      have : 0 < -q / 360 := div_pos (by linarith) (by norm_num)
      linarith
    simpa [wrapAux] using h2
  | succ n ih =>
    intro q hq
    by_cases h : q < 0
    · have hone : 1 ≤ ⌈-q / 360⌉ := by
        have : (0 : ℚ) < -q / 360 := div_pos (by linarith) (by norm_num)
        exact Int.ceil_pos.mpr this
      have hf : wrapFuel (q + 360) ≤ n := by
        have := ceil_shift360 q
        simp only [wrapFuel] at hq ⊢
        omega
      simpa [wrapAux, if_pos h] using ih (q + 360) hf
    · push_neg at h
      simpa [wrapAux, not_lt.mpr h] using h

lemma wrapAux_lt360 (n : Nat) : ∀ q : ℚ, q < 360 → wrapAux n q < 360 := by
  induction n with
  | zero => intro q hq; simpa [wrapAux] using hq
  | succ n ih =>
    intro q hq
    by_cases h : q < 0
    · simpa [wrapAux, if_pos h] using ih (q + 360) (by linarith)
    · simpa [wrapAux, h] using hq

lemma wrapNonneg_shift (q : ℚ) : ∃ k : ℕ, wrapNonneg q = q + 360 * k :=
  wrapAux_shift _ q

lemma wrapNonneg_nonneg (q : ℚ) : 0 ≤ wrapNonneg q :=
  wrapAux_nonneg _ q le_rfl

lemma wrapNonneg_lt360 (q : ℚ) (h : q < 360) : wrapNonneg q < 360 :=
  wrapAux_lt360 _ q h

/-- The function `wrapNonneg` satisfies the defining equation of the source's
`while angle < 0.0 { angle += 360.0 }` loop, so it is that loop. -/
lemma wrapNonneg_eq (q : ℚ) :
    wrapNonneg q = if q < 0 then wrapNonneg (q + 360) else q := by
  by_cases h : q < 0
  · have hone : 1 ≤ ⌈-q / 360⌉ := by
      have : (0 : ℚ) < -q / 360 := div_pos (by linarith) (by norm_num)
      exact Int.ceil_pos.mpr this
    have hf : wrapFuel q = wrapFuel (q + 360) + 1 := by
      have := ceil_shift360 q
      simp only [wrapFuel]
      omega
    rw [if_pos h]
    simp only [wrapNonneg, hf, wrapAux, if_pos h]
  · have hf : wrapFuel q = 0 := by
      simp only [wrapFuel, Int.toNat_eq_zero]
      refine Int.ceil_le.mpr ?_
      push_neg at h
      push_cast
      rw [neg_div]
      have : 0 ≤ q / 360 := div_nonneg (by linarith) (by norm_num)
      linarith
    rw [if_neg h]
    simp [wrapNonneg, hf, wrapAux]

/-- Reflecting a numeric hue about a numeric axis yields the numeric
hue `360 - wrapNonneg (h - a) + a`. -/
lemma hsv_reflect_some (h a : ℚ) (s0 v0 : F) :
    hsv_reflect ⟨some h, s0, v0⟩ (some a)
      = ⟨some (360 - wrapNonneg (h - a) + a), s0, v0⟩ := by
  simp [hsv_reflect, fsub, fadd, fwrap]

lemma hsv_reflect_h (h a : ℚ) (s0 v0 : F) :
    (hsv_reflect ⟨some h, s0, v0⟩ (some a)).h
      = some (360 - wrapNonneg (h - a) + a) := by
  simp [hsv_reflect, fsub, fadd, fwrap]

/-- C1: for every hue `h` and every axis `a`, applying the hue
reflection twice with the same axis returns the original hue modulo
360: `hsv_reflect (hsv_reflect (h, a), a) ≡ h (mod 360)`. -/
theorem hsv_reflect_involution_mod360 (h a : ℚ) (s0 v0 : F) :
    ∃ k : ℤ, (hsv_reflect (hsv_reflect ⟨some h, s0, v0⟩ (some a)) (some a)).h
      = some (h + 360 * k) := by
  obtain ⟨k1, hk1⟩ := wrapNonneg_shift (h - a)
  obtain ⟨k2, hk2⟩ := wrapNonneg_shift (360 - wrapNonneg (h - a) + a - a)
  refine ⟨(k1 : ℤ) - k2, ?_⟩
  rw [hsv_reflect_some, hsv_reflect_h, hk2, hk1]
  simp only [Option.some.injEq]
  push_cast
  ring

lemma ratTrunc_nonneg_le (q : ℚ) (h : 0 ≤ q) : (ratTrunc q : ℚ) ≤ q := by
  simp only [ratTrunc, if_pos h]
  exact Int.floor_le q

lemma ratTrunc_nonneg_gt (q : ℚ) (h : 0 ≤ q) : q - 1 < (ratTrunc q : ℚ) := by
  simp only [ratTrunc, if_pos h]
  have := Int.lt_floor_add_one q
  linarith

lemma ratTrunc_neg_ge (q : ℚ) (h : ¬ 0 ≤ q) : q ≤ (ratTrunc q : ℚ) := by
  simp only [ratTrunc, if_neg h]
  exact Int.le_ceil q

lemma ratTrunc_neg_lt (q : ℚ) (h : ¬ 0 ≤ q) : (ratTrunc q : ℚ) < q + 1 := by
  simp only [ratTrunc, if_neg h]
  have := Int.ceil_lt_add_one q
  linarith

/-- C6 counterexample: the command-line angle `-90` is numeric, but the
axis the core actually uses is `(-90) % 180 = -90` (Rust's float
remainder keeps the dividend's sign), which does not lie in `[0, 180)`. -/
theorem mainAxis_neg_input_counterexample :
    mainAxis (-90) = -90 ∧ ¬ (0 ≤ mainAxis (-90) ∧ mainAxis (-90) < 180) := by
  have h : mainAxis (-90) = -90 := by norm_num [mainAxis, rustRem, ratTrunc]
  exact ⟨h, by rw [h]; norm_num⟩

/-- C6 (amended): the axis actually used by the core is Rust's float
remainder of the argument by 180.  It is congruent to the argument
modulo 180 and lies in the open interval `(-180, 180)`; it lies in
`[0, 180)` only when the argument is nonnegative (for a negative
argument it lies in `(-180, 0]`). -/
theorem mainAxis_spec (x : ℚ) :
    (∃ k : ℤ, mainAxis x = x - 180 * k) ∧
      (-180 < mainAxis x ∧ mainAxis x < 180) ∧
      (0 ≤ x → 0 ≤ mainAxis x ∧ mainAxis x < 180) := by
  refine ⟨⟨ratTrunc (x / 180), rfl⟩, ?_, ?_⟩
  · by_cases h : 0 ≤ x / 180
    · have h1 := ratTrunc_nonneg_le _ h
      have h2 := ratTrunc_nonneg_gt _ h
      constructor
      · simp only [mainAxis, rustRem]
        nlinarith
      · simp only [mainAxis, rustRem]
        nlinarith
    · have h1 := ratTrunc_neg_ge _ h
      have h2 := ratTrunc_neg_lt _ h
      constructor
      · simp only [mainAxis, rustRem]
        nlinarith
      · simp only [mainAxis, rustRem]
        nlinarith
  · intro hx
    have h : 0 ≤ x / 180 := by positivity
    have h1 := ratTrunc_nonneg_le _ h
    have h2 := ratTrunc_nonneg_gt _ h
    constructor
    · simp only [mainAxis, rustRem]
      nlinarith
    · simp only [mainAxis, rustRem]
      nlinarith

/-- C6 witness (for the amended theorem's conditional part): at the
concrete nonnegative argument `270`, the axis is `90 ∈ [0, 180)`. -/
theorem mainAxis_spec_witness :
    (∃ k : ℤ, mainAxis 270 = 270 - 180 * k) ∧
      (-180 < mainAxis 270 ∧ mainAxis 270 < 180) ∧
      ((0 : ℚ) ≤ 270 → 0 ≤ mainAxis 270 ∧ mainAxis 270 < 180) :=
  mainAxis_spec 270

lemma workerRows_flat (n W : Nat) :
    (List.range n).flatMap (fun y => (List.range W).map fun yInner => y * W + yInner)
      = List.range (n * W) := by
  induction n with
  | zero => simp
  | succ n ih =>
    rw [List.range_succ, List.flatMap_append, ih]
    simp only [List.flatMap_cons, List.flatMap_nil, List.append_nil]
    rw [Nat.succ_mul, List.range_add]

lemma workerRows_eq (H W : Nat) : workerRows H W = List.range (H / W * W) :=
  workerRows_flat (H / W) W

/-- The spawned workers' rows followed by the coordinator's remainder
rows are exactly the rows `0, 1, ..., height - 1`, in order. -/
lemma rowOrder_eq_range (H W : Nat) :
    workerRows H W ++ remainderRows H W = List.range H := by
  rw [workerRows_eq]
  have hle : H / W * W ≤ H := Nat.div_mul_le_self H W
  simp only [remainderRows]
  rw [List.range_eq_range' (H / W * W), List.range_eq_range' H]
  have happ := List.range'_append 0 (H / W * W) (H - H / W * W) 1
  simp only [Nat.zero_add, Nat.one_mul] at happ
  rw [happ, Nat.sub_add_cancel hle]

/-- C7: for image height `H` and worker count `W > 0`, the rows given to
the `⌊H/W⌋*W` single-row workers (`y*W + y_inner` for `y < ⌊H/W⌋`,
`y_inner < W`) together with the remainder rows `⌊H/W⌋*W .. H-1`
processed synchronously are exactly the list `0, 1, ..., H-1`: every row
— hence every output coordinate of that row — is covered exactly once,
by exactly one worker or the remainder pass. -/
theorem worker_remainder_partition (H W : Nat) (hW : 0 < W) :
    workerRows H W ++ remainderRows H W = List.range H :=
  rowOrder_eq_range H W

/-- C7 witness: height 5, two workers' worth of batches. -/
theorem worker_remainder_partition_witness :
    0 < 2 ∧ workerRows 5 2 ++ remainderRows 5 2 = List.range 5 :=
  ⟨by decide, worker_remainder_partition 5 2 (by decide)⟩

/-- C8: processing a grid with worker count `W > 1` produces exactly the
same output (or exactly the same abort) as the fully synchronous pass
with worker count 1, for every input grid, size and reflection angle.
The worker rows are disjoint, so the mutex-serialised interleaving is
modelled by processing rows in spawn order; both sides process the rows
`0..height-1` once each. -/
theorem runPass_worker_count_invariant (inp : Nat → Nat → Rgba)
    (w H W : Nat) (ang : F) (hW : 1 < W) :
    runPass inp w H W ang = runPass inp w H 1 ang := by
  unfold runPass
  rw [rowOrder_eq_range, rowOrder_eq_range]

/-- C8 witness: a concrete 1×2 grid with 3 workers versus 1. -/
theorem runPass_worker_count_invariant_witness :
    1 < 3 ∧ runPass (fun _ _ => ⟨9, 8, 7, 6⟩) 1 2 3 (some 0)
      = runPass (fun _ _ => ⟨9, 8, 7, 6⟩) 1 2 1 (some 0) :=
  ⟨by decide, runPass_worker_count_invariant _ 1 2 3 (some 0) (by decide)⟩

lemma process_pixel_alpha (p : Rgba) (ang : F) (q : Rgba)
    (h : process_pixel p ang = some q) : q.a = p.a := by
  simp only [process_pixel, Option.bind_eq_some, Option.map_eq_some'] at h
  obtain ⟨hsv, h1, nrgb, h2, rfl⟩ := h
  rfl

lemma writeRow_char (inp : Nat → Nat → Rgba) (ang : F) (y : Nat) :
    ∀ (xs : List Nat) (buf buf' : Buf),
      xs.foldlM (fun acc x => (process_pixel (inp x y) ang).map (putPixel acc x y)) buf
        = some buf' →
      ∀ x' y',
        (y' = y ∧ x' ∈ xs → process_pixel (inp x' y') ang = some (buf' x' y')) ∧
        (y' ≠ y ∨ x' ∉ xs → buf' x' y' = buf x' y') := by
  intro xs
  induction xs with
  | nil =>
    intro buf buf' hfold x' y'
    simp only [List.foldlM_nil, Option.pure_def, Option.some.injEq] at hfold
    subst hfold
    exact ⟨fun hx => absurd hx.2 (List.not_mem_nil x'), fun _ => rfl⟩
  | cons x xs ih =>
    intro buf buf' hfold x' y'
    simp only [List.foldlM_cons, Option.bind_eq_bind] at hfold
    rw [Option.bind_eq_some] at hfold
    obtain ⟨buf1, hstep, hrest⟩ := hfold
    rw [Option.map_eq_some'] at hstep
    obtain ⟨q, hq, hput⟩ := hstep
    have IH := ih buf1 buf' hrest x' y'
    constructor
    · rintro ⟨hy, hmem⟩
      by_cases hxs : x' ∈ xs
      · exact IH.1 ⟨hy, hxs⟩
      · have hx : x' = x := by
          rcases List.mem_cons.mp hmem with h | h
          · exact h
          · exact absurd h hxs
        have hun : buf' x' y' = buf1 x' y' := IH.2 (Or.inr hxs)
        rw [hun, ← hput]
        show process_pixel (inp x' y') ang
          = some (if x' = x ∧ y' = y then q else buf x' y')
        rw [if_pos ⟨hx, hy⟩, hx, hy]
        exact hq
    · intro hnot
      have hxs : y' ≠ y ∨ x' ∉ xs := by
        rcases hnot with h | h
        · exact Or.inl h
        · exact Or.inr fun hc => h (List.mem_cons_of_mem x hc)
      have hne : ¬ (x' = x ∧ y' = y) := by
        rintro ⟨h1, h2⟩
        rcases hnot with h | h
        · exact h h2
        · exact h (by rw [h1]; exact List.mem_cons_self x xs)
      have hun : buf' x' y' = buf1 x' y' := IH.2 hxs
      rw [hun, ← hput]
      show (if x' = x ∧ y' = y then q else buf x' y') = buf x' y'
      rw [if_neg hne]

lemma foldRows_char (inp : Nat → Nat → Rgba) (ang : F) (w : Nat) :
    ∀ (ys : List Nat) (buf buf' : Buf),
      ys.foldlM (fun b y => writeRow inp ang w y b) buf = some buf' →
      ∀ x y0,
        (y0 ∈ ys ∧ x < w → process_pixel (inp x y0) ang = some (buf' x y0)) ∧
        (y0 ∉ ys → buf' x y0 = buf x y0) := by
  intro ys
  induction ys with
  | nil =>
    intro buf buf' hfold x y0
    simp only [List.foldlM_nil, Option.pure_def, Option.some.injEq] at hfold
    subst hfold
    exact ⟨fun hx => absurd hx.1 (List.not_mem_nil y0), fun _ => rfl⟩
  | cons y ys ih =>
    intro buf buf' hfold x y0
    simp only [List.foldlM_cons, Option.bind_eq_bind] at hfold
    rw [Option.bind_eq_some] at hfold
    obtain ⟨buf1, hstep, hrest⟩ := hfold
    have IH := ih buf1 buf' hrest x y0
    have hrow := writeRow_char inp ang y (List.range w) buf buf1 hstep x y0
    constructor
    · rintro ⟨hmem, hxw⟩
      by_cases hys : y0 ∈ ys
      · exact IH.1 ⟨hys, hxw⟩
      · have hy : y0 = y := by
          rcases List.mem_cons.mp hmem with h | h
          · exact h
          · exact absurd h hys
        have hun : buf' x y0 = buf1 x y0 := IH.2 hys
        rw [hun]
        exact hrow.1 ⟨hy, List.mem_range.mpr hxw⟩
    · intro hnot
      have hy : y0 ≠ y := fun hc => hnot (hc ▸ List.mem_cons_self y ys)
      have hys : y0 ∉ ys := fun hc => hnot (List.mem_cons_of_mem y hc)
      rw [IH.2 hys]
      exact hrow.2 (Or.inl hy)

/-- C5: for every input grid, every coordinate inside the image and
every reflection angle, whenever the pass completes, the alpha channel
of the output pixel equals the alpha channel of the input pixel at the
same coordinate — only the colour channels are replaced. -/
theorem runPass_alpha_preserved (inp : Nat → Nat → Rgba) (w H W : Nat)
    (ang : F) (x y : Nat) (hW : 0 < W) (hx : x < w) (hy : y < H) :
    (runPass inp w H W ang).elim True (fun buf => (buf x y).a = (inp x y).a) := by
  cases hr : runPass inp w H W ang with
  | none => exact trivial
  | some buf =>
    unfold runPass at hr
    have hcover : y ∈ workerRows H W ++ remainderRows H W := by
      rw [rowOrder_eq_range]
      exact List.mem_range.mpr hy
    have hchar := (foldRows_char inp ang w _ initBuf buf hr x y).1 ⟨hcover, hx⟩
    exact process_pixel_alpha (inp x y) ang (buf x y) hchar

/-- C5 witness: a red pixel with alpha 7 keeps alpha 7. -/
theorem runPass_alpha_preserved_witness :
    0 < 1 ∧ (0 : Nat) < 1 ∧
      (runPass (fun _ _ => ⟨255, 0, 0, 7⟩) 1 1 1 (some 0)).elim True
        (fun buf => (buf 0 0).a = 7) :=
  ⟨by decide, by decide,
    runPass_alpha_preserved (fun _ _ => ⟨255, 0, 0, 7⟩) 1 1 1 (some 0) 0 0
      (by decide) (by decide) (by decide)⟩

lemma le_max3_left (r g b : Nat) : r ≤ max3 r g b := le_max_left _ _

lemma le_max3_mid (r g b : Nat) : g ≤ max3 r g b :=
  le_trans (le_max_left g b) (le_max_right r _)

lemma le_max3_right (r g b : Nat) : b ≤ max3 r g b :=
  le_trans (le_max_right g b) (le_max_right r _)

lemma min3_le_left (r g b : Nat) : min3 r g b ≤ r := min_le_left _ _

lemma min3_le_mid (r g b : Nat) : min3 r g b ≤ g :=
  le_trans (min_le_right r _) (min_le_left g b)

lemma min3_le_right (r g b : Nat) : min3 r g b ≤ b :=
  le_trans (min_le_right r _) (min_le_right g b)

lemma min3_le_max3 (r g b : Nat) : min3 r g b ≤ max3 r g b :=
  le_trans (min3_le_left r g b) (le_max3_left r g b)

lemma max3_eq_or (r g b : Nat) : max3 r g b = r ∨ max3 r g b = g ∨ max3 r g b = b := by
  unfold max3
  rcases max_choice r (max g b) with h | h
  · exact Or.inl h
  · rcases max_choice g b with h2 | h2
    · exact Or.inr (Or.inl (h.trans h2))
    · exact Or.inr (Or.inr (h.trans h2))

lemma min3_eq_or (r g b : Nat) : min3 r g b = r ∨ min3 r g b = g ∨ min3 r g b = b := by
  unfold min3
  rcases min_choice r (min g b) with h | h
  · exact Or.inl h
  · rcases min_choice g b with h2 | h2
    · exact Or.inr (Or.inl (h.trans h2))
    · exact Or.inr (Or.inr (h.trans h2))

lemma div255_inj (x y : ℚ) (h : x / 255 = y / 255) : x = y := by
  field_simp at h
  exact h

/-- Evaluation of `rgb_to_hsv` on a gray pixel `(t,t,t)`: hue 0, value `t/255*100`,
and saturation `0/0` — NaN (`none`) — when `t = 0`, else 0. -/
lemma rgb_to_hsv_gray (t : Nat) :
    rgb_to_hsv ⟨t, t, t⟩
      = some ⟨some 0, if t = 0 then none else some 0, some ((t : ℚ) / 255 * 100)⟩ := by
  by_cases ht : t = 0
  · subst ht
    simp [rgb_to_hsv, max3, min3, fsub, fmul, fdiv, fbeq]
  · have ht' : ((t : ℚ) / 255) ≠ 0 := by
      refine div_ne_zero ?_ (by norm_num)
      exact_mod_cast ht
    simp [rgb_to_hsv, max3, min3, fsub, fmul, fdiv, fbeq, ht, ht']

/-- Evaluation of `rgb_to_hsv` when the pixel is not achromatic and red attains the
maximum (the first guard that fires). -/
lemma rgb_to_hsv_rmax (r g b : Nat) (hne : max3 r g b ≠ min3 r g b)
    (hr : max3 r g b = r) :
    rgb_to_hsv ⟨r, g, b⟩ = some
      ⟨some (60 * (((g : ℚ) - b) / ((max3 r g b : ℚ) - min3 r g b))),
       some (((max3 r g b : ℚ) - min3 r g b) / (max3 r g b : ℚ) * 100),
       some ((max3 r g b : ℚ) / 255 * 100)⟩ := by
  have hrQ : ((max3 r g b : ℚ)) = (r : ℚ) := by exact_mod_cast hr
  have hmn_lt : min3 r g b < max3 r g b :=
    lt_of_le_of_ne (min3_le_max3 r g b) (Ne.symm hne)
  have hMn' : ((r : ℚ)) ≠ (min3 r g b : ℚ) := by
    rw [← hrQ]
    exact_mod_cast hne
  have hc' : ((r : ℚ)) / 255 - (min3 r g b : ℚ) / 255 ≠ 0 := by
    rw [div_sub_div_same]
    exact div_ne_zero (sub_ne_zero.mpr hMn') (by norm_num)
  have g1' : ¬ ((r : ℚ) / 255 = (min3 r g b : ℚ) / 255) :=
    fun hh => hMn' (div255_inj _ _ hh)
  have hrpos : 0 < r := by
    have := hr ▸ hmn_lt
    omega
  have hr0 : ((r : ℚ)) / 255 ≠ 0 := by
    refine div_ne_zero ?_ (by norm_num)
    exact_mod_cast hrpos.ne'
  have hrne : ((r : ℚ)) ≠ 0 := by exact_mod_cast hrpos.ne'
  simp [rgb_to_hsv, fsub, fmul, fdiv, fadd, fbeq, hrQ, g1', hc', hr0]
  constructor
  · field_simp
    ring
  · field_simp

/-- Evaluation of `rgb_to_hsv` when the pixel is not achromatic, red does not attain
the maximum, and green does (the second guard that fires). -/
lemma rgb_to_hsv_gmax (r g b : Nat) (hne : max3 r g b ≠ min3 r g b)
    (hnr : max3 r g b ≠ r) (hg : max3 r g b = g) :
    rgb_to_hsv ⟨r, g, b⟩ = some
      ⟨some (60 * (2 + ((b : ℚ) - r) / ((max3 r g b : ℚ) - min3 r g b))),
       some (((max3 r g b : ℚ) - min3 r g b) / (max3 r g b : ℚ) * 100),
       some ((max3 r g b : ℚ) / 255 * 100)⟩ := by
  have hgQ : ((max3 r g b : ℚ)) = (g : ℚ) := by exact_mod_cast hg
  have hmn_lt : min3 r g b < max3 r g b :=
    lt_of_le_of_ne (min3_le_max3 r g b) (Ne.symm hne)
  have hMn' : ((g : ℚ)) ≠ (min3 r g b : ℚ) := by
    rw [← hgQ]
    exact_mod_cast hne
  have hc' : ((g : ℚ)) / 255 - (min3 r g b : ℚ) / 255 ≠ 0 := by
    rw [div_sub_div_same]
    exact div_ne_zero (sub_ne_zero.mpr hMn') (by norm_num)
  have g1' : ¬ ((g : ℚ) / 255 = (min3 r g b : ℚ) / 255) :=
    fun hh => hMn' (div255_inj _ _ hh)
  have g2' : ¬ ((g : ℚ) / 255 = (r : ℚ) / 255) := by
    intro hh
    refine hnr ?_
    rw [hg]
    exact_mod_cast div255_inj _ _ hh
  have hgpos : 0 < g := by
    have := hg ▸ hmn_lt
    omega
  have hg0 : ((g : ℚ)) / 255 ≠ 0 := by
    refine div_ne_zero ?_ (by norm_num)
    exact_mod_cast hgpos.ne'
  have hgne : ((g : ℚ)) ≠ 0 := by exact_mod_cast hgpos.ne'
  simp [rgb_to_hsv, fsub, fmul, fdiv, fadd, fbeq, hgQ, g1', g2', hc', hg0]
  constructor
  · field_simp
    ring
  · field_simp

/-- Evaluation of `rgb_to_hsv` when the pixel is not achromatic and only blue attains
the maximum (the third guard that fires). -/
lemma rgb_to_hsv_bmax (r g b : Nat) (hne : max3 r g b ≠ min3 r g b)
    (hnr : max3 r g b ≠ r) (hng : max3 r g b ≠ g) (hb : max3 r g b = b) :
    rgb_to_hsv ⟨r, g, b⟩ = some
      ⟨some (60 * (4 + ((r : ℚ) - g) / ((max3 r g b : ℚ) - min3 r g b))),
       some (((max3 r g b : ℚ) - min3 r g b) / (max3 r g b : ℚ) * 100),
       some ((max3 r g b : ℚ) / 255 * 100)⟩ := by
  have hbQ : ((max3 r g b : ℚ)) = (b : ℚ) := by exact_mod_cast hb
  have hmn_lt : min3 r g b < max3 r g b :=
    lt_of_le_of_ne (min3_le_max3 r g b) (Ne.symm hne)
  have hMn' : ((b : ℚ)) ≠ (min3 r g b : ℚ) := by
    rw [← hbQ]
    exact_mod_cast hne
  have hc' : ((b : ℚ)) / 255 - (min3 r g b : ℚ) / 255 ≠ 0 := by
    rw [div_sub_div_same]
    exact div_ne_zero (sub_ne_zero.mpr hMn') (by norm_num)
  have g1' : ¬ ((b : ℚ) / 255 = (min3 r g b : ℚ) / 255) :=
    fun hh => hMn' (div255_inj _ _ hh)
  have g2' : ¬ ((b : ℚ) / 255 = (r : ℚ) / 255) := by
    intro hh
    refine hnr ?_
    rw [hb]
    exact_mod_cast div255_inj _ _ hh
  have g3' : ¬ ((b : ℚ) / 255 = (g : ℚ) / 255) := by
    intro hh
    refine hng ?_
    rw [hb]
    exact_mod_cast div255_inj _ _ hh
  have hbpos : 0 < b := by
    have := hb ▸ hmn_lt
    omega
  have hb0 : ((b : ℚ)) / 255 ≠ 0 := by
    refine div_ne_zero ?_ (by norm_num)
    exact_mod_cast hbpos.ne'
  have hbne : ((b : ℚ)) ≠ 0 := by exact_mod_cast hbpos.ne'
  simp [rgb_to_hsv, fsub, fmul, fdiv, fadd, fbeq, hbQ, g1', g2', g3', hc', hb0]
  constructor
  · field_simp
    ring
  · field_simp

/-- Evaluation of `hsv_to_rgb` on a fully numeric HSV triple, with all the `Option`
plumbing removed: the three sector branches as rational `if`s. -/
lemma hsv_to_rgb_eval (h s v : ℚ) :
    hsv_to_rgb ⟨some h, some s, some v⟩ =
      (let hp : ℚ := if 300 ≤ h then (h - 360) / 60 else h / 60
       let c : ℚ := s / 100 * (v / 100)
       let mnv : ℚ := v / 100 - s / 100 * (v / 100)
       let mxv : ℚ := v / 100
       if -1 ≤ hp ∧ hp < 1 then
         some (if hp < 0 then
           (⟨toU8 (some (mxv * 255)), toU8 (some (mnv * 255)),
             toU8 (some ((mnv - hp * c) * 255))⟩ : Rgb)
         else
           ⟨toU8 (some (mxv * 255)), toU8 (some ((mnv + hp * c) * 255)),
            toU8 (some (mnv * 255))⟩)
       else if 1 ≤ hp ∧ hp < 3 then
         some (if hp < 2 then
           ⟨toU8 (some ((mnv - (hp - 2) * c) * 255)), toU8 (some (mxv * 255)),
            toU8 (some (mnv * 255))⟩
         else
           ⟨toU8 (some (mnv * 255)), toU8 (some (mxv * 255)),
            toU8 (some ((mnv + (hp - 2) * c) * 255))⟩)
       else if 3 ≤ hp ∧ hp < 5 then
         some (if hp < 4 then
           ⟨toU8 (some (mnv * 255)), toU8 (some ((mnv - (hp - 4) * c) * 255)),
            toU8 (some (mxv * 255))⟩
         else
           ⟨toU8 (some ((mnv + (hp - 4) * c) * 255)), toU8 (some (mnv * 255)),
            toU8 (some (mxv * 255))⟩)
       else none) := by
  by_cases h3 : (300 : ℚ) ≤ h
  · simp only [hsv_to_rgb, fle, flt, fsub, fadd, fmul, fdiv, h3, decide_eq_true_eq,
      Bool.and_eq_true, if_true, if_false]
    norm_num
    split_ifs <;> simp
  · simp only [hsv_to_rgb, fle, flt, fsub, fadd, fmul, fdiv, h3, decide_eq_true_eq,
      Bool.and_eq_true, if_true, if_false]
    norm_num
    split_ifs <;> simp

/-- Rust's `(x * 255.) as u8` recovers `n` exactly when the float
equals the integer `n ≤ 255`. -/
lemma toU8_eq (q : ℚ) (n : Nat) (hq : q = (n : ℚ)) (hn : n ≤ 255) :
    toU8 (some q) = n := by
  subst hq
  have h0 : ¬ ((n : ℚ) < 0) := not_lt.mpr (Nat.cast_nonneg n)
  simp only [toU8, h0, if_false, Int.floor_natCast, Int.toNat_natCast]
  exact min_eq_right hn

/-- Round trip on a gray pixel, black included. -/
lemma roundtrip_gray (t : Nat) (ht255 : t ≤ 255) :
    (rgb_to_hsv ⟨t, t, t⟩).bind hsv_to_rgb = some ⟨t, t, t⟩ := by
  rw [rgb_to_hsv_gray, Option.some_bind]
  by_cases ht0 : t = 0
  · subst ht0
    norm_num [hsv_to_rgb, fle, flt, fsub, fadd, fmul, fdiv, toU8]
  · rw [if_neg ht0, hsv_to_rgb_eval]
    have htne : ((t : ℚ)) ≠ 0 := by
      have : 0 < t := Nat.pos_of_ne_zero ht0
      exact_mod_cast this.ne'
    norm_num
    exact toU8_eq _ _ rfl ht255

/-- Round trip when red attains the maximum of a chromatic pixel. -/
lemma roundtrip_rmax (r g b : Nat) (hr255 : r ≤ 255) (hg255 : g ≤ 255) (hb255 : b ≤ 255)
    (hne : max3 r g b ≠ min3 r g b) (hmax : max3 r g b = r) :
    (rgb_to_hsv ⟨r, g, b⟩).bind hsv_to_rgb = some ⟨r, g, b⟩ := by
  have h2 := le_max3_mid r g b
  have h3 := le_max3_right r g b
  have h5 := min3_le_mid r g b
  have h6 := min3_le_right r g b
  have hmle := min3_le_max3 r g b
  have hmlt : min3 r g b < max3 r g b := lt_of_le_of_ne hmle (Ne.symm hne)
  have hMQ : ((max3 r g b : ℚ)) = (r : ℚ) := by exact_mod_cast hmax
  have hMmpos : (0 : ℚ) < (r : ℚ) - (min3 r g b : ℚ) := by
    have hx : ((min3 r g b : ℚ)) < (r : ℚ) := by exact_mod_cast (hmax ▸ hmlt)
    linarith
  have hcancel : ((g : ℚ) - b) / ((r : ℚ) - min3 r g b) * ((r : ℚ) - min3 r g b)
      = (g : ℚ) - b := div_mul_cancel₀ _ (ne_of_gt hMmpos)
  have htlow : (-1 : ℚ) ≤ ((g : ℚ) - b) / ((r : ℚ) - min3 r g b) := by
    rw [le_div_iff₀ hMmpos]
    have hb' : (b : ℚ) ≤ r := by exact_mod_cast (hmax ▸ h3)
    have hm' : ((min3 r g b : ℚ)) ≤ g := by exact_mod_cast h5
    linarith
  have hthigh : ((g : ℚ) - b) / ((r : ℚ) - min3 r g b) ≤ 1 := by
    rw [div_le_one hMmpos]
    have hg' : (g : ℚ) ≤ r := by exact_mod_cast (hmax ▸ h2)
    have hm' : ((min3 r g b : ℚ)) ≤ b := by exact_mod_cast h6
    linarith
  have h300 : ¬ ((300 : ℚ) ≤ 60 * (((g : ℚ) - b) / ((r : ℚ) - min3 r g b))) := by
    push_neg
    linarith
  have hrne : ((r : ℚ)) ≠ 0 := by
    have hx : 0 < r := by omega
    exact_mod_cast hx.ne'
  rw [rgb_to_hsv_rmax r g b hne hmax, Option.some_bind, hsv_to_rgb_eval, hMQ]
  simp only []
  rw [if_neg h300]
  rw [show (60 : ℚ) * (((g : ℚ) - b) / ((r : ℚ) - min3 r g b)) / 60
        = ((g : ℚ) - b) / ((r : ℚ) - min3 r g b) from by ring]
  split_ifs with hc1 hs1 hc2 hs2 hc3 hs3
  · -- t ∈ [-1, 0): blue exceeds green, so green is the minimum
    have hgbQ : ((g : ℚ)) < b := by nlinarith [hcancel]
    have hgb : g < b := by exact_mod_cast hgbQ
    have hmg : min3 r g b = g := by rcases min3_eq_or r g b with h | h | h <;> omega
    have hmQ : ((min3 r g b : ℚ)) = (g : ℚ) := by exact_mod_cast hmg
    have hrg : ((r : ℚ)) - g ≠ 0 := by rw [hmQ] at hMmpos; exact ne_of_gt hMmpos
    rw [hmQ]
    simp only [Option.some.injEq, Rgb.mk.injEq]
    refine ⟨toU8_eq _ _ ?_ hr255, toU8_eq _ _ ?_ hg255, toU8_eq _ _ ?_ hb255⟩
    · field_simp <;> ring
    · field_simp <;> ring
    · field_simp <;> ring
  · -- t ∈ [0, 1): green ≥ blue, so blue is the minimum
    push_neg at hs1
    have hbgQ : ((b : ℚ)) ≤ g := by nlinarith [hcancel]
    have hbg : b ≤ g := by exact_mod_cast hbgQ
    have hmb : min3 r g b = b := by rcases min3_eq_or r g b with h | h | h <;> omega
    have hmQ : ((min3 r g b : ℚ)) = (b : ℚ) := by exact_mod_cast hmb
    have hrb : ((r : ℚ)) - b ≠ 0 := by rw [hmQ] at hMmpos; exact ne_of_gt hMmpos
    rw [hmQ]
    simp only [Option.some.injEq, Rgb.mk.injEq]
    refine ⟨toU8_eq _ _ ?_ hr255, toU8_eq _ _ ?_ hg255, toU8_eq _ _ ?_ hb255⟩
    · field_simp <;> ring
    · field_simp <;> ring
    · field_simp <;> ring
  · -- t = 1: green ties the maximum, blue is the minimum
    have ht1 : ((g : ℚ) - b) / ((r : ℚ) - min3 r g b) = 1 := le_antisymm hthigh hc2.1
    have hsub : ((g : ℚ)) - b = (r : ℚ) - min3 r g b := by
      rw [div_eq_one_iff_eq (ne_of_gt hMmpos)] at ht1
      exact ht1
    have hnat : g + min3 r g b = r + b := by
      have hx : ((g : ℚ)) + min3 r g b = (r : ℚ) + b := by linarith
      exact_mod_cast hx
    have hgr : g = r := by
      have hg' : g ≤ r := by
        have := hmax ▸ h2
        omega
      omega
    have hbm : min3 r g b = b := by omega
    have hmQ : ((min3 r g b : ℚ)) = (b : ℚ) := by exact_mod_cast hbm
    have hrb : ((r : ℚ)) - b ≠ 0 := by rw [hmQ] at hMmpos; exact ne_of_gt hMmpos
    rw [hmQ] at ht1
    rw [hmQ, ht1]
    simp only [Option.some.injEq, Rgb.mk.injEq]
    refine ⟨toU8_eq _ _ ?_ hr255, toU8_eq _ _ ?_ hg255, toU8_eq _ _ ?_ hb255⟩
    · field_simp <;> ring
    · rw [show ((g : ℚ)) = (r : ℚ) from by exact_mod_cast hgr]
      field_simp <;> ring
    · field_simp <;> ring
  · exfalso
    push_neg at hs2
    linarith
  · exfalso
    linarith [hc3.1]
  · exfalso
    linarith [hc3.1]
  · exfalso
    rcases not_and_or.mp hc1 with h | h
    · exact h htlow
    · push_neg at h
      rcases not_and_or.mp hc2 with h2 | h2
      · exact h2 h
      · push_neg at h2
        linarith

/-- Round trip when green (but not red) attains the maximum of a
chromatic pixel. -/
lemma roundtrip_gmax (r g b : Nat) (hr255 : r ≤ 255) (hg255 : g ≤ 255) (hb255 : b ≤ 255)
    (hne : max3 r g b ≠ min3 r g b) (hnr : max3 r g b ≠ r) (hmax : max3 r g b = g) :
    (rgb_to_hsv ⟨r, g, b⟩).bind hsv_to_rgb = some ⟨r, g, b⟩ := by
  have h1 := le_max3_left r g b
  have h3 := le_max3_right r g b
  have h4 := min3_le_left r g b
  have h6 := min3_le_right r g b
  have hmle := min3_le_max3 r g b
  have hmlt : min3 r g b < max3 r g b := lt_of_le_of_ne hmle (Ne.symm hne)
  have hMQ : ((max3 r g b : ℚ)) = (g : ℚ) := by exact_mod_cast hmax
  have hMmpos : (0 : ℚ) < (g : ℚ) - (min3 r g b : ℚ) := by
    have hx : ((min3 r g b : ℚ)) < (g : ℚ) := by exact_mod_cast (hmax ▸ hmlt)
    linarith
  have hcancel : ((b : ℚ) - r) / ((g : ℚ) - min3 r g b) * ((g : ℚ) - min3 r g b)
      = (b : ℚ) - r := div_mul_cancel₀ _ (ne_of_gt hMmpos)
  have hulow : (-1 : ℚ) ≤ ((b : ℚ) - r) / ((g : ℚ) - min3 r g b) := by
    rw [le_div_iff₀ hMmpos]
    have hr' : (r : ℚ) ≤ g := by exact_mod_cast (hmax ▸ h1)
    have hm' : ((min3 r g b : ℚ)) ≤ b := by exact_mod_cast h6
    linarith
  have huhigh : ((b : ℚ) - r) / ((g : ℚ) - min3 r g b) ≤ 1 := by
    rw [div_le_one hMmpos]
    have hb' : (b : ℚ) ≤ g := by exact_mod_cast (hmax ▸ h3)
    have hm' : ((min3 r g b : ℚ)) ≤ r := by exact_mod_cast h4
    linarith
  have h300 : ¬ ((300 : ℚ) ≤ 60 * (2 + ((b : ℚ) - r) / ((g : ℚ) - min3 r g b))) := by
    push_neg
    linarith
  have hgne : ((g : ℚ)) ≠ 0 := by
    have hx : 0 < g := by omega
    exact_mod_cast hx.ne'
  rw [rgb_to_hsv_gmax r g b hne hnr hmax, Option.some_bind, hsv_to_rgb_eval, hMQ]
  simp only []
  rw [if_neg h300]
  rw [show (60 : ℚ) * (2 + ((b : ℚ) - r) / ((g : ℚ) - min3 r g b)) / 60
        = 2 + ((b : ℚ) - r) / ((g : ℚ) - min3 r g b) from by ring]
  split_ifs with hc1 hs1 hc2 hs2 hc3 hs3
  · exfalso
    linarith [hc1.2]
  · exfalso
    linarith [hc1.2]
  · -- u ∈ [-1, 0): red exceeds blue, so blue is the minimum
    have hbrQ : ((b : ℚ)) < r := by nlinarith [hcancel]
    have hbr : b < r := by exact_mod_cast hbrQ
    have hmb : min3 r g b = b := by rcases min3_eq_or r g b with h | h | h <;> omega
    have hmQ : ((min3 r g b : ℚ)) = (b : ℚ) := by exact_mod_cast hmb
    have hgb : ((g : ℚ)) - b ≠ 0 := by rw [hmQ] at hMmpos; exact ne_of_gt hMmpos
    rw [hmQ]
    simp only [Option.some.injEq, Rgb.mk.injEq]
    refine ⟨toU8_eq _ _ ?_ hr255, toU8_eq _ _ ?_ hg255, toU8_eq _ _ ?_ hb255⟩
    · field_simp <;> ring
    · field_simp <;> ring
    · field_simp <;> ring
  · -- u ∈ [0, 1): blue ≥ red, so red is the minimum
    push_neg at hs2
    have hrbQ : ((r : ℚ)) ≤ b := by nlinarith [hcancel]
    have hrb : r ≤ b := by exact_mod_cast hrbQ
    have hmr : min3 r g b = r := by rcases min3_eq_or r g b with h | h | h <;> omega
    have hmQ : ((min3 r g b : ℚ)) = (r : ℚ) := by exact_mod_cast hmr
    have hgr : ((g : ℚ)) - r ≠ 0 := by rw [hmQ] at hMmpos; exact ne_of_gt hMmpos
    rw [hmQ]
    simp only [Option.some.injEq, Rgb.mk.injEq]
    refine ⟨toU8_eq _ _ ?_ hr255, toU8_eq _ _ ?_ hg255, toU8_eq _ _ ?_ hb255⟩
    · field_simp <;> ring
    · field_simp <;> ring
    · field_simp <;> ring
  · -- u = 1: blue ties the maximum, red is the minimum
    have ht1 : ((b : ℚ) - r) / ((g : ℚ) - min3 r g b) = 1 :=
      le_antisymm huhigh (by linarith [hc3.1])
    have hsub : ((b : ℚ)) - r = (g : ℚ) - min3 r g b := by
      rw [div_eq_one_iff_eq (ne_of_gt hMmpos)] at ht1
      exact ht1
    have hnat : b + min3 r g b = g + r := by
      have hx : ((b : ℚ)) + min3 r g b = (g : ℚ) + r := by linarith
      exact_mod_cast hx
    have hbg : b = g := by
      have hb' : b ≤ g := by
        have := hmax ▸ h3
        omega
      omega
    have hmr : min3 r g b = r := by omega
    have hmQ : ((min3 r g b : ℚ)) = (r : ℚ) := by exact_mod_cast hmr
    have hgr : ((g : ℚ)) - r ≠ 0 := by rw [hmQ] at hMmpos; exact ne_of_gt hMmpos
    rw [hmQ] at ht1
    rw [hmQ, ht1]
    simp only [Option.some.injEq, Rgb.mk.injEq]
    refine ⟨toU8_eq _ _ ?_ hr255, toU8_eq _ _ ?_ hg255, toU8_eq _ _ ?_ hb255⟩
    · field_simp <;> ring
    · field_simp <;> ring
    · rw [show ((b : ℚ)) = (g : ℚ) from by exact_mod_cast hbg]
      field_simp <;> ring
  · exfalso
    push_neg at hs3
    linarith
  · exfalso
    rcases not_and_or.mp hc2 with h | h
    · exact h (by linarith)
    · push_neg at h
      exact hc3 ⟨by linarith, by linarith⟩

/-- Round trip when only blue attains the maximum of a chromatic
pixel. -/
lemma roundtrip_bmax (r g b : Nat) (hr255 : r ≤ 255) (hg255 : g ≤ 255) (hb255 : b ≤ 255)
    (hne : max3 r g b ≠ min3 r g b) (hnr : max3 r g b ≠ r) (hng : max3 r g b ≠ g)
    (hmax : max3 r g b = b) :
    (rgb_to_hsv ⟨r, g, b⟩).bind hsv_to_rgb = some ⟨r, g, b⟩ := by
  have h1 := le_max3_left r g b
  have h2 := le_max3_mid r g b
  have h4 := min3_le_left r g b
  have h5 := min3_le_mid r g b
  have hmle := min3_le_max3 r g b
  have hmlt : min3 r g b < max3 r g b := lt_of_le_of_ne hmle (Ne.symm hne)
  have hrlt : r < b := by omega
  have hglt : g < b := by omega
  have hMQ : ((max3 r g b : ℚ)) = (b : ℚ) := by exact_mod_cast hmax
  have hMmpos : (0 : ℚ) < (b : ℚ) - (min3 r g b : ℚ) := by
    have hx : ((min3 r g b : ℚ)) < (b : ℚ) := by exact_mod_cast (hmax ▸ hmlt)
    linarith
  have hcancel : ((r : ℚ) - g) / ((b : ℚ) - min3 r g b) * ((b : ℚ) - min3 r g b)
      = (r : ℚ) - g := div_mul_cancel₀ _ (ne_of_gt hMmpos)
  have hwlow : (-1 : ℚ) < ((r : ℚ) - g) / ((b : ℚ) - min3 r g b) := by
    rw [lt_div_iff₀ hMmpos]
    have hg' : (g : ℚ) < b := by exact_mod_cast hglt
    have hm' : ((min3 r g b : ℚ)) ≤ r := by exact_mod_cast h4
    linarith
  have hwhigh : ((r : ℚ) - g) / ((b : ℚ) - min3 r g b) < 1 := by
    rw [div_lt_one hMmpos]
    have hr' : (r : ℚ) < b := by exact_mod_cast hrlt
    have hm' : ((min3 r g b : ℚ)) ≤ g := by exact_mod_cast h5
    linarith
  have h300 : ¬ ((300 : ℚ) ≤ 60 * (4 + ((r : ℚ) - g) / ((b : ℚ) - min3 r g b))) := by
    push_neg
    linarith
  have hbne : ((b : ℚ)) ≠ 0 := by
    have hx : 0 < b := by omega
    exact_mod_cast hx.ne'
  rw [rgb_to_hsv_bmax r g b hne hnr hng hmax, Option.some_bind, hsv_to_rgb_eval, hMQ]
  simp only []
  rw [if_neg h300]
  rw [show (60 : ℚ) * (4 + ((r : ℚ) - g) / ((b : ℚ) - min3 r g b)) / 60
        = 4 + ((r : ℚ) - g) / ((b : ℚ) - min3 r g b) from by ring]
  split_ifs with hc1 hs1 hc2 hs2 hc3 hs3
  · exfalso
    linarith [hc1.2]
  · exfalso
    linarith [hc1.2]
  · exfalso
    linarith [hc2.2]
  · exfalso
    linarith [hc2.2]
  · -- w ∈ (-1, 0): green exceeds red, so red is the minimum
    have hrgQ : ((r : ℚ)) < g := by nlinarith [hcancel]
    have hrg : r < g := by exact_mod_cast hrgQ
    have hmr : min3 r g b = r := by rcases min3_eq_or r g b with h | h | h <;> omega
    have hmQ : ((min3 r g b : ℚ)) = (r : ℚ) := by exact_mod_cast hmr
    have hbr : ((b : ℚ)) - r ≠ 0 := by rw [hmQ] at hMmpos; exact ne_of_gt hMmpos
    rw [hmQ]
    simp only [Option.some.injEq, Rgb.mk.injEq]
    refine ⟨toU8_eq _ _ ?_ hr255, toU8_eq _ _ ?_ hg255, toU8_eq _ _ ?_ hb255⟩
    · field_simp <;> ring
    · field_simp <;> ring
    · field_simp <;> ring
  · -- w ∈ [0, 1): red ≥ green, so green is the minimum
    push_neg at hs3
    have hgrQ : ((g : ℚ)) ≤ r := by nlinarith [hcancel]
    have hgr : g ≤ r := by exact_mod_cast hgrQ
    have hmg : min3 r g b = g := by rcases min3_eq_or r g b with h | h | h <;> omega
    have hmQ : ((min3 r g b : ℚ)) = (g : ℚ) := by exact_mod_cast hmg
    have hbg : ((b : ℚ)) - g ≠ 0 := by rw [hmQ] at hMmpos; exact ne_of_gt hMmpos
    rw [hmQ]
    simp only [Option.some.injEq, Rgb.mk.injEq]
    refine ⟨toU8_eq _ _ ?_ hr255, toU8_eq _ _ ?_ hg255, toU8_eq _ _ ?_ hb255⟩
    · field_simp <;> ring
    · field_simp <;> ring
    · field_simp <;> ring
  · exfalso
    exact hc3 ⟨by linarith, by linarith⟩

lemma wrapNonneg_of_nonneg (q : ℚ) (h : 0 ≤ q) : wrapNonneg q = q := by
  rw [wrapNonneg_eq, if_neg (not_lt.mpr h)]

/-- Any hue in `(0, 540)` lands in one of the three sector branches of
`hsv_to_rgb`, whatever the saturation and value floats are (NaN
included), so the conversion returns a pixel rather than aborting. -/
lemma hsv_to_rgb_some_of_hue (h2 : ℚ) (s v : F) (h0 : 0 < h2) (h540 : h2 < 540) :
    ∃ out, hsv_to_rgb ⟨some h2, s, v⟩ = some out := by
  simp only [hsv_to_rgb, fle, flt, decide_eq_true_eq, Bool.and_eq_true]
  by_cases h3 : (300 : ℚ) ≤ h2
  · rw [if_pos h3]
    have hp1 : (-1 : ℚ) ≤ (h2 - 360) / 60 := by
      rw [le_div_iff₀ (by norm_num : (0 : ℚ) < 60)]
      linarith
    have hp2 : (h2 - 360) / 60 < 3 := by
      rw [div_lt_iff₀ (by norm_num : (0 : ℚ) < 60)]
      linarith
    simp only [fdiv, fsub, if_neg (by norm_num : ¬ ((60 : ℚ) = 0)), decide_eq_true_eq]
    by_cases hb1 : (h2 - 360) / 60 < 1
    · rw [if_pos ⟨hp1, hb1⟩]
      exact ⟨_, rfl⟩
    · rw [if_neg fun hcc => hb1 hcc.2, if_pos ⟨by linarith [not_lt.mp hb1], hp2⟩]
      exact ⟨_, rfl⟩
  · rw [if_neg h3]
    push_neg at h3
    have hp0 : (0 : ℚ) < h2 / 60 := by positivity
    have hp5 : h2 / 60 < 5 := by
      rw [div_lt_iff₀ (by norm_num : (0 : ℚ) < 60)]
      linarith
    simp only [fdiv, if_neg (by norm_num : ¬ ((60 : ℚ) = 0)), decide_eq_true_eq]
    by_cases hb1 : h2 / 60 < 1
    · rw [if_pos ⟨by linarith, hb1⟩]
      exact ⟨_, rfl⟩
    · by_cases hb2 : h2 / 60 < 3
      · rw [if_neg fun hcc => hb1 hcc.2, if_pos ⟨not_lt.mp hb1, hb2⟩]
        exact ⟨_, rfl⟩
      · rw [if_neg fun hcc => hb1 hcc.2, if_neg fun hcc => hb2 hcc.2,
          if_pos ⟨not_lt.mp hb2, hp5⟩]
        exact ⟨_, rfl⟩

/-- Evaluation of `hsv_to_rgb` on hue in `(0, 540)`, NaN saturation and value 0 (the
data arriving downstream of a reflected black pixel) yields black. -/
lemma hsv_to_rgb_nan_sat (h2 : ℚ) (h0 : 0 < h2) (h540 : h2 < 540) :
    hsv_to_rgb ⟨some h2, none, some 0⟩ = some ⟨0, 0, 0⟩ := by
  simp only [hsv_to_rgb, fle, flt, fdiv, fsub, fadd, fmul, decide_eq_true_eq,
    Bool.and_eq_true, zero_div, if_neg (by norm_num : ¬ ((100 : ℚ) = 0))]
  by_cases h3 : (300 : ℚ) ≤ h2
  · rw [if_pos h3]
    have hp1 : (-1 : ℚ) ≤ (h2 - 360) / 60 := by
      rw [le_div_iff₀ (by norm_num : (0 : ℚ) < 60)]
      linarith
    have hp2 : (h2 - 360) / 60 < 3 := by
      rw [div_lt_iff₀ (by norm_num : (0 : ℚ) < 60)]
      linarith
    simp only [if_neg (by norm_num : ¬ ((60 : ℚ) = 0)), decide_eq_true_eq]
    split_ifs with hc1 hs1 hc2 hs2 hc3 hs3 <;> norm_num [toU8]
    exfalso
    rcases not_and_or.mp hc1 with h | h
    · exact h hp1
    · push_neg at h
      rcases not_and_or.mp hc2 with h2' | h2' <;> push_neg at h2'
      · linarith
      · linarith
  · rw [if_neg h3]
    push_neg at h3
    have hp0 : (0 : ℚ) < h2 / 60 := by positivity
    have hp5 : h2 / 60 < 5 := by
      rw [div_lt_iff₀ (by norm_num : (0 : ℚ) < 60)]
      linarith
    simp only [if_neg (by norm_num : ¬ ((60 : ℚ) = 0)), decide_eq_true_eq]
    split_ifs with hc1 hs1 hc2 hs2 hc3 hs3 <;> norm_num [toU8]
    exfalso
    rcases not_and_or.mp hc1 with h | h
    · exact h (by linarith)
    · push_neg at h
      rcases not_and_or.mp hc2 with h2' | h2' <;> push_neg at h2'
      · linarith
      · rcases not_and_or.mp hc3 with h3' | h3' <;> push_neg at h3'
        · linarith
        · linarith

/-- Evaluation of `hsv_to_rgb` on the HSV data of a gray pixel of brightness `t`,
after the hue was moved anywhere in `(0, 540)`: chroma is 0 (or NaN for
black), so every sector branch reconstructs `(t, t, t)`. -/
lemma hsv_to_rgb_gray_hsv (h2 : ℚ) (h0 : 0 < h2) (h540 : h2 < 540) (t : Nat) (ht : t ≤ 255) :
    hsv_to_rgb ⟨some h2, if t = 0 then none else some 0, some ((t : ℚ) / 255 * 100)⟩
      = some ⟨t, t, t⟩ := by
  by_cases ht0 : t = 0
  · subst ht0
    rw [if_pos rfl, show (((0 : Nat) : ℚ) / 255 * 100) = 0 from by norm_num]
    exact hsv_to_rgb_nan_sat h2 h0 h540
  · rw [if_neg ht0, hsv_to_rgb_eval]
    simp only []
    by_cases h3 : (300 : ℚ) ≤ h2
    · rw [if_pos h3]
      have hp1 : (-1 : ℚ) ≤ (h2 - 360) / 60 := by
        rw [le_div_iff₀ (by norm_num : (0 : ℚ) < 60)]
        linarith
      have hp2 : (h2 - 360) / 60 < 3 := by
        rw [div_lt_iff₀ (by norm_num : (0 : ℚ) < 60)]
        linarith
      split_ifs with hc1 hs1 hc2 hs2 hc3 hs3 <;>
        first
          | (simp only [Option.some.injEq, Rgb.mk.injEq]
             refine ⟨toU8_eq _ _ ?_ ht, toU8_eq _ _ ?_ ht, toU8_eq _ _ ?_ ht⟩ <;>
               (field_simp <;> ring))
          | (exfalso
             rcases not_and_or.mp hc1 with h | h
             · exact h hp1
             · push_neg at h
               rcases not_and_or.mp hc2 with h2' | h2' <;> push_neg at h2' <;> linarith)
    · rw [if_neg h3]
      push_neg at h3
      have hp0 : (0 : ℚ) < h2 / 60 := by positivity
      have hp5 : h2 / 60 < 5 := by
        rw [div_lt_iff₀ (by norm_num : (0 : ℚ) < 60)]
        linarith
      split_ifs with hc1 hs1 hc2 hs2 hc3 hs3 <;>
        first
          | (simp only [Option.some.injEq, Rgb.mk.injEq]
             refine ⟨toU8_eq _ _ ?_ ht, toU8_eq _ _ ?_ ht, toU8_eq _ _ ?_ ht⟩ <;>
               (field_simp <;> ring))
          | (exfalso
             rcases not_and_or.mp hc1 with h | h
             · exact h (by linarith)
             · push_neg at h
               rcases not_and_or.mp hc2 with h2' | h2' <;> push_neg at h2'
               · linarith
               · rcases not_and_or.mp hc3 with h3' | h3' <;> push_neg at h3' <;> linarith)

/-- The hue produced by `rgb_to_hsv` always lies in `[-60, 300)` (the
achromatic branch returns 0; red max gives `[-60, 60]`; green max gives
`[60, 180]`; blue-only max gives `(180, 300)`). -/
lemma hue_bounds_core (r g b : Nat) :
    ∃ hsv q, rgb_to_hsv ⟨r, g, b⟩ = some hsv ∧ hsv.h = some q ∧ -60 ≤ q ∧ q < 300 := by
  have h1 := le_max3_left r g b
  have h2 := le_max3_mid r g b
  have h3 := le_max3_right r g b
  have h4 := min3_le_left r g b
  have h5 := min3_le_mid r g b
  have h6 := min3_le_right r g b
  by_cases hnm : max3 r g b = min3 r g b
  · have hgr : g = r := by omega
    have hbr : b = r := by omega
    rw [hgr, hbr]
    refine ⟨_, 0, rgb_to_hsv_gray r, ?_, by norm_num, by norm_num⟩
    rfl
  · have hmlt : min3 r g b < max3 r g b :=
      lt_of_le_of_ne (min3_le_max3 r g b) (Ne.symm hnm)
    have hMmpos : (0 : ℚ) < (max3 r g b : ℚ) - min3 r g b := by
      have hx : ((min3 r g b : ℚ)) < (max3 r g b : ℚ) := by exact_mod_cast hmlt
      linarith
    have hgQ : (g : ℚ) ≤ (max3 r g b : ℚ) := by exact_mod_cast h2
    have hbQ : (b : ℚ) ≤ (max3 r g b : ℚ) := by exact_mod_cast h3
    have hrQ : (r : ℚ) ≤ (max3 r g b : ℚ) := by exact_mod_cast h1
    have hmgQ : ((min3 r g b : ℚ)) ≤ g := by exact_mod_cast h5
    have hmbQ : ((min3 r g b : ℚ)) ≤ b := by exact_mod_cast h6
    have hmrQ : ((min3 r g b : ℚ)) ≤ r := by exact_mod_cast h4
    by_cases hnr : max3 r g b = r
    · have htlow : (-1 : ℚ) ≤ ((g : ℚ) - b) / ((max3 r g b : ℚ) - min3 r g b) := by
        rw [le_div_iff₀ hMmpos]
        linarith
      have hthigh : ((g : ℚ) - b) / ((max3 r g b : ℚ) - min3 r g b) ≤ 1 := by
        rw [div_le_one hMmpos]
        linarith
      refine ⟨_, 60 * (((g : ℚ) - b) / ((max3 r g b : ℚ) - min3 r g b)),
        rgb_to_hsv_rmax r g b hnm hnr, ?_, by linarith, by linarith⟩
      rfl
    · by_cases hng : max3 r g b = g
      · have hulow : (-1 : ℚ) ≤ ((b : ℚ) - r) / ((max3 r g b : ℚ) - min3 r g b) := by
          rw [le_div_iff₀ hMmpos]
          linarith
        have huhigh : ((b : ℚ) - r) / ((max3 r g b : ℚ) - min3 r g b) ≤ 1 := by
          rw [div_le_one hMmpos]
          linarith
        refine ⟨_, 60 * (2 + ((b : ℚ) - r) / ((max3 r g b : ℚ) - min3 r g b)),
          rgb_to_hsv_gmax r g b hnm hnr hng, ?_, by linarith, by linarith⟩
        rfl
      · have hb3 : max3 r g b = b := by
          rcases max3_eq_or r g b with h | h | h
          · exact absurd h hnr
          · exact absurd h hng
          · exact h
        have hrlt : (r : ℚ) < (max3 r g b : ℚ) := by
          have hx : r < max3 r g b := by omega
          exact_mod_cast hx
        have hglt : (g : ℚ) < (max3 r g b : ℚ) := by
          have hx : g < max3 r g b := by omega
          exact_mod_cast hx
        have hwlow : (-1 : ℚ) < ((r : ℚ) - g) / ((max3 r g b : ℚ) - min3 r g b) := by
          rw [lt_div_iff₀ hMmpos]
          linarith
        have hwhigh : ((r : ℚ) - g) / ((max3 r g b : ℚ) - min3 r g b) < 1 := by
          rw [div_lt_one hMmpos]
          linarith
        refine ⟨_, 60 * (4 + ((r : ℚ) - g) / ((max3 r g b : ℚ) - min3 r g b)),
          rgb_to_hsv_bmax r g b hnm hnr hng hb3, ?_, by linarith, by linarith⟩
        rfl

/-- C2: for every RGB pixel (largest channel nonzero or pure black
alike) the round trip `hsv_to_rgb (rgb_to_hsv p)` reproduces `p` — in
fact exactly, which implies the claimed ±1 quantization tolerance for
`max > 0` and the exact `(0,0,0)` result (a `some`, no abort) for pure
black. -/
theorem rgb_hsv_roundtrip_exact (r g b : Nat) (hr : r ≤ 255) (hg : g ≤ 255) (hb : b ≤ 255) :
    (rgb_to_hsv ⟨r, g, b⟩).bind hsv_to_rgb = some ⟨r, g, b⟩ := by
  by_cases hnm : max3 r g b = min3 r g b
  · have h1 := le_max3_left r g b
    have h2 := le_max3_mid r g b
    have h4 := min3_le_left r g b
    have h5 := min3_le_mid r g b
    have h6 := min3_le_right r g b
    have h3 := le_max3_right r g b
    have hgr : g = r := by omega
    have hbr : b = r := by omega
    rw [hgr, hbr]
    exact roundtrip_gray r hr
  · by_cases hnr : max3 r g b = r
    · exact roundtrip_rmax r g b hr hg hb hnm hnr
    · by_cases hng : max3 r g b = g
      · exact roundtrip_gmax r g b hr hg hb hnm hnr hng
      · have hb3 : max3 r g b = b := by
          rcases max3_eq_or r g b with h | h | h
          · exact absurd h hnr
          · exact absurd h hng
          · exact h
        exact roundtrip_bmax r g b hr hg hb hnm hnr hng hb3

/-- C2 witness: a concrete chromatic pixel and pure black both round
trip exactly. -/
theorem rgb_hsv_roundtrip_exact_witness :
    (12 : Nat) ≤ 255 ∧ (200 : Nat) ≤ 255 ∧ (34 : Nat) ≤ 255 ∧
      (rgb_to_hsv ⟨12, 200, 34⟩).bind hsv_to_rgb = some ⟨12, 200, 34⟩ :=
  ⟨by decide, by decide, by decide,
    rgb_hsv_roundtrip_exact 12 200 34 (by decide) (by decide) (by decide)⟩

/-- C3: at the pure black pixel the code computes
`s = (c / big_m) * 100 = (0/0) * 100`, an IEEE NaN (modelled `none`) —
not the saturation 0 that the specification mandates for this
division-by-zero edge case. -/
theorem rgb_to_hsv_black_saturation_nan :
    rgb_to_hsv ⟨0, 0, 0⟩ = some ⟨some 0, none, some 0⟩ := by
  simp [rgb_to_hsv, max3, min3, fsub, fmul, fdiv, fbeq]

/-- C4 counterexample: for the pixel `(255, 0, 255)` the hue returned by
`rgb_to_hsv` is `-60`, which is negative — the final hue is *not*
wrapped into `[0, 360)` by adding 360. -/
theorem rgb_to_hsv_negative_hue_counterexample :
    rgb_to_hsv ⟨255, 0, 255⟩ = some ⟨some (-60), some 100, some 100⟩ ∧ ((-60 : ℚ)) < 0 := by
  constructor
  · simp [rgb_to_hsv, max3, min3, fsub, fmul, fdiv, fbeq]
    norm_num
  · norm_num

/-- C4 (amended): the hue returned by `rgb_to_hsv` is `hue' * 60` with
no wrap applied; it lies in `[-60, 300)` for every 8-bit pixel, and can
be negative (so not in `[0, 360)`). -/
theorem rgb_to_hsv_hue_range (r g b : Nat) (hr : r ≤ 255) (hg : g ≤ 255) (hb : b ≤ 255) :
    ∃ hsv q, rgb_to_hsv ⟨r, g, b⟩ = some hsv ∧ hsv.h = some q ∧ -60 ≤ q ∧ q < 300 :=
  hue_bounds_core r g b

/-- C4 witness: the amended range at the pixel attaining hue `-60`. -/
theorem rgb_to_hsv_hue_range_witness :
    (255 : Nat) ≤ 255 ∧ (0 : Nat) ≤ 255 ∧
      ∃ hsv q, rgb_to_hsv ⟨255, 0, 255⟩ = some hsv ∧ hsv.h = some q ∧ -60 ≤ q ∧ q < 300 :=
  ⟨by decide, by decide,
    rgb_to_hsv_hue_range 255 0 255 (by decide) (by decide) (by decide)⟩

/-- C9: for every 8-bit pixel and every axis in `[0, 180)`, the match of
`rgb_to_hsv` takes a guarded arm (never its `unreachable!`), and the
reflected hue — which may exceed 360° since `hsv_reflect` does not
re-wrap — still lands in one of the three sector branches of
`hsv_to_rgb` (`h_prime ∈ [-1, 5)`), so its `unreachable!` is never
reached either. -/
theorem pipeline_sector_safe (r g b : Nat) (hr : r ≤ 255) (hg : g ≤ 255) (hb : b ≤ 255)
    (a : ℚ) (ha0 : 0 ≤ a) (ha1 : a < 180) :
    ∃ hsv out, rgb_to_hsv ⟨r, g, b⟩ = some hsv ∧
      hsv_to_rgb (hsv_reflect hsv (some a)) = some out := by
  obtain ⟨hsv, q, heq, hh, hq1, hq2⟩ := hue_bounds_core r g b
  obtain ⟨h1, s1, v1⟩ := hsv
  have hh' : h1 = some q := hh
  subst hh'
  have hw0 : (0 : ℚ) ≤ wrapNonneg (q - a) := wrapNonneg_nonneg _
  have hw360 : wrapNonneg (q - a) < 360 := wrapNonneg_lt360 _ (by linarith)
  obtain ⟨out, hout⟩ :=
    hsv_to_rgb_some_of_hue (360 - wrapNonneg (q - a) + a) s1 v1 (by linarith) (by linarith)
  refine ⟨⟨some q, s1, v1⟩, out, heq, ?_⟩
  rw [hsv_reflect_some]
  exact hout

/-- C9 witness: a concrete pixel and axis inside `[0, 180)`. -/
theorem pipeline_sector_safe_witness :
    (10 : Nat) ≤ 255 ∧ (0 : ℚ) ≤ 90 ∧ (90 : ℚ) < 180 ∧
      ∃ hsv out, rgb_to_hsv ⟨10, 20, 30⟩ = some hsv ∧
        hsv_to_rgb (hsv_reflect hsv (some 90)) = some out :=
  ⟨by decide, by norm_num, by norm_num,
    pipeline_sector_safe 10 20 30 (by decide) (by decide) (by decide) 90
      (by norm_num) (by norm_num)⟩

/-- C10: for every achromatic pixel `(t,t,t)` (black included) and every
axis in `[0, 180)`, the full pipeline `rgb_to_hsv → hsv_reflect →
hsv_to_rgb` returns the colour channels unchanged: the chroma is 0, so
every sector branch reconstructs all three channels equal to `t`. -/
theorem achromatic_pipeline_identity (t : Nat) (ht : t ≤ 255)
    (a : ℚ) (ha0 : 0 ≤ a) (ha1 : a < 180) :
    (rgb_to_hsv ⟨t, t, t⟩).bind (fun hsv => hsv_to_rgb (hsv_reflect hsv (some a)))
      = some ⟨t, t, t⟩ := by
  rw [rgb_to_hsv_gray, Option.some_bind, hsv_reflect_some]
  have hw0 : (0 : ℚ) ≤ wrapNonneg (0 - a) := wrapNonneg_nonneg _
  have hw360 : wrapNonneg (0 - a) < 360 := wrapNonneg_lt360 _ (by linarith)
  exact hsv_to_rgb_gray_hsv _ (by linarith) (by linarith) t ht

/-- C10 witness: a mid-gray pixel with axis 90°. -/
theorem achromatic_pipeline_identity_witness :
    (7 : Nat) ≤ 255 ∧ (0 : ℚ) ≤ 90 ∧ (90 : ℚ) < 180 ∧
      (rgb_to_hsv ⟨7, 7, 7⟩).bind (fun hsv => hsv_to_rgb (hsv_reflect hsv (some 90)))
        = some ⟨7, 7, 7⟩ :=
  ⟨by decide, by norm_num, by norm_num,
    achromatic_pipeline_identity 7 (by decide) 90 (by norm_num) (by norm_num)⟩
